import Mathlib

/-!
Verification of the transaction-encoding core of `tridims/blockchain-wallet`.

The Rust sources embedded here are `src/transaction.rs` (the `Transaction`
struct, `rlp_encode`, `get_unsigned_rlp_encoded`, `get_signed_rlp_encoded`,
`sign_with_wallet`) and `src/utils.rs` (`get_random_bytes`, `generate_salt`).
The `rlp` helper module, the access-list codec, the `Signature` type and the
hash/signing collaborators are declared and called from those files but their
own source files are not part of the sources; they are modelled from the
specification (the recursive-length-prefix encoding rules of §4.1 and the
access-list layout of §4.2), with hashing and signing kept abstract as
function parameters, as the spec treats them as external collaborators.

Bytes are modelled as `Nat` (with explicit `< 256` or length facts where a
property needs them) and `U256` values as `Nat` with explicit `< 2 ^ 256`
bounds where they matter.
-/

set_option maxRecDepth 8000

namespace BlockchainWallet

/-- Big-endian value of a byte list (the number a big-endian byte string
denotes). Used to state minimality of the integer byte representation. -/
def beVal (l : List Nat) : Nat := l.foldl (fun a b => 256 * a + b) 0

/-- Modelled from the spec: the minimal big-endian byte representation of an
unsigned integer — "no leading zero bytes; the integer zero encodes as the
empty byte string" (§4.1). The `rlp` module implementing this is absent from
the sources. -/
def natToBE (n : Nat) : List Nat :=
  if h : n = 0 then [] else natToBE (n / 256) ++ [n % 256]
termination_by n
decreasing_by exact Nat.div_lt_self (Nat.pos_of_ne_zero h) (by norm_num)

/-- Modelled from the spec: the byte-string encoding rule of §4.1. A single
byte in `[0x00, 0x7f]` encodes as itself; a string of length `L ≤ 55` gets the
prefix byte `0x80 + L`; a longer string gets `0xb7 + len(L_be)` followed by
the big-endian length. This is `rlp::bytes` of the absent `rlp` module. -/
def rlpBytes (b : List Nat) : List Nat :=
  if b.length = 1 ∧ b.headI < 0x80 then b
  else if b.length ≤ 55 then (0x80 + b.length) :: b
  else (0xb7 + (natToBE b.length).length) :: (natToBE b.length ++ b)

/-- Modelled from the spec: `rlp::uint` — an unsigned integer is reduced to
its minimal big-endian bytes and then encoded as a byte string (§4.1). -/
def rlpUint (n : Nat) : List Nat := rlpBytes (natToBE n)

/-- Modelled from the spec: the list encoding rule of §4.1, applied to an
already-concatenated payload of encoded items. -/
def rlpListPayload (p : List Nat) : List Nat :=
  if p.length ≤ 55 then (0xc0 + p.length) :: p
  else (0xf7 + (natToBE p.length).length) :: (natToBE p.length ++ p)

/-- Modelled from the spec: `rlp::iter` — list-encode a sequence of
already-encoded items by concatenating them and prefixing the total (§4.1). -/
def rlpIter (items : List (List Nat)) : List Nat := rlpListPayload items.flatten

/-- An access-list entry: a 20-byte address paired with a list of 32-byte
storage slots (`accesslist.rs` is absent; layout per §4.2 and §3). -/
abbrev AccessEntry := List Nat × List (List Nat)

/-- Modelled from the spec: the storage-key list of one access-list entry,
each key encoded as a fixed 32-byte string, wrapped as a list (§4.2). -/
def slotListEnc (ks : List (List Nat)) : List Nat := rlpIter (ks.map rlpBytes)

/-- Modelled from the spec: one access-list entry encoded as a 2-element list
`[address, storage-key list]` (§4.2). -/
def entryEnc (e : AccessEntry) : List Nat := rlpIter [rlpBytes e.1, slotListEnc e.2]

/-- Modelled from the spec: `AccessList::rlp_encode` — the access list as a
list of 2-element lists; an empty access list encodes as an empty list (§4.2). -/
def accessListRlpEncode (al : List AccessEntry) : List Nat :=
  rlpIter (al.map entryEnc)

/-- The `Signature` produced by the wallet collaborator: `y_parity` (0 or 1),
`r`, `s` (unsigned 256-bit); its Rust definition lives in the absent
`wallet` module, with the shape fixed by §3 and §6 of the spec. -/
structure Signature where
  y_parity : Nat
  r : Nat
  s : Nat
deriving DecidableEq

/-- The EIP-1559 transaction of `src/transaction.rs`. `U256` fields are `Nat`;
the optional 20-byte `to` address and the data/access-list byte payloads are
byte lists. -/
structure Transaction where
  chain_id : Nat
  nonce : Nat
  max_priority_fee_per_gas : Nat
  max_fee_per_gas : Nat
  gas : Nat
  «to» : Option (List Nat)
  value : Nat
  data : List Nat
  access_list : List AccessEntry
deriving DecidableEq

/-- The `to` field encoding of `rlp_encode`: `self.to.map_or_else(||
rlp::bytes(b""), |to| rlp::bytes(&*to))` — empty byte string when absent. -/
def toEnc : Option (List Nat) → List Nat
  | none => rlpBytes []
  | some a => rlpBytes a

/-- The optional signature tail of `rlp_encode`: `signature.map(|s|
[rlp::uint(s.y_parity()), rlp::uint(s.r()), rlp::uint(s.s())])`, flattened. -/
def sigTailEnc : Option Signature → List (List Nat)
  | none => []
  | some s => [rlpUint s.y_parity, rlpUint s.r, rlpUint s.s]

/-- The ordered `fields` array built inside `Transaction::rlp_encode`. -/
def Transaction.txFields (t : Transaction) : List (List Nat) :=
  [rlpUint t.chain_id, rlpUint t.nonce, rlpUint t.max_priority_fee_per_gas,
   rlpUint t.max_fee_per_gas, rlpUint t.gas, toEnc t.«to», rlpUint t.value,
   rlpBytes t.data, accessListRlpEncode t.access_list]

/-- `Transaction::rlp_encode`: the fields, chained with the optional signature
tail, are list-encoded and the EIP-2718 marker byte `0x02` is prepended. -/
def Transaction.rlp_encode (t : Transaction) (signature : Option Signature) : List Nat :=
  0x02 :: rlpIter (t.txFields ++ sigTailEnc signature)

/-- `Transaction::get_unsigned_rlp_encoded`: `keccak256(self.rlp_encode(None))`
with the hash collaborator abstract (spec §6: `hash(bytes) -> [32]byte`). -/
def Transaction.get_unsigned_rlp_encoded (t : Transaction)
    (hash : List Nat → List Nat) : List Nat :=
  hash (t.rlp_encode none)

/-- `Transaction::get_signed_rlp_encoded`: `self.rlp_encode(Some(signature))`. -/
def Transaction.get_signed_rlp_encoded (t : Transaction) (signature : Signature) : List Nat :=
  t.rlp_encode (some signature)

/-- `Transaction::sign_with_wallet`, with the wallet's fallible `sign` as an
abstract function. The Rust method takes `&mut self`; state passing makes the
transaction after the call the second component, and the Rust body never
assigns to `self`, so it is returned as received. `wallet.sign(message)?`
propagates the error. -/
def Transaction.sign_with_wallet {ε : Type} (t : Transaction)
    (hash : List Nat → List Nat) (walletSign : List Nat → Except ε Signature) :
    Except ε (List Nat) × Transaction :=
  match walletSign (t.get_unsigned_rlp_encoded hash) with
  | .error e => (.error e, t)
  | .ok signature => (.ok (t.get_signed_rlp_encoded signature), t)

/-- `utils::get_random_bytes` with the rng injected as a byte source indexed
by position. The buffer is filled first; the `assert!(len <= 256)` then
panics on oversize buffers, modelled as the `.error` branch which carries the
already-filled buffer; otherwise `Ok` with the filled buffer. -/
def get_random_bytes (rng : Nat → Nat) (buf : List Nat) : Except (List Nat) (List Nat) :=
  let filled := (List.range buf.length).map rng
  if buf.length ≤ 256 then .ok filled else .error filled

/-- `utils::generate_salt`: allocate `size` zero bytes and fill them via
`get_random_bytes` (whose panic propagates via `.error`). -/
def generate_salt (rng : Nat → Nat) (size : Nat) : Except (List Nat) (List Nat) :=
  get_random_bytes rng (List.replicate size 0)

/-! ## Basic facts about the big-endian representation -/

theorem beVal_append_singleton (l : List Nat) (b : Nat) :
    beVal (l ++ [b]) = 256 * beVal l + b := by
  simp [beVal, List.foldl_append]

theorem beVal_natToBE (n : Nat) : beVal (natToBE n) = n := by
  induction n using Nat.strong_induction_on with
  | _ n ih =>
    rw [natToBE]
    split
    · simp [beVal]; omega
    · rename_i hn
      rw [beVal_append_singleton, ih (n / 256) (Nat.div_lt_self (Nat.pos_of_ne_zero hn) (by norm_num))]
      omega

theorem natToBE_inj {m n : Nat} (h : natToBE m = natToBE n) : m = n := by
  have := beVal_natToBE m
  rw [h, beVal_natToBE] at this
  omega

theorem natToBE_eq_nil_iff (n : Nat) : natToBE n = [] ↔ n = 0 := by
  constructor
  · intro h
    rw [natToBE] at h
    split at h
    · assumption
    · simp at h
  · intro h
    subst h
    rw [natToBE]
    simp

theorem natToBE_ne_zero_cons (n : Nat) : ∀ l : List Nat, natToBE n ≠ 0 :: l := by
  induction n using Nat.strong_induction_on with
  | _ n ih =>
    intro l h
    rw [natToBE] at h
    split at h
    · simp at h
    · rename_i hn
      rcases heq : natToBE (n / 256) with _ | ⟨a, as⟩
      · rw [heq] at h
        simp at h
        have hq : n / 256 = 0 := (natToBE_eq_nil_iff _).mp heq
        omega
      · rw [heq] at h
        have ha : a = 0 := by simpa using congrArg List.headI h
        exact ih (n / 256) (Nat.div_lt_self (Nat.pos_of_ne_zero hn) (by norm_num)) as
          (ha ▸ heq)

theorem length_natToBE_le (n k : Nat) (h : n < 256 ^ k) : (natToBE n).length ≤ k := by
  induction n using Nat.strong_induction_on generalizing k with
  | _ n ih =>
    rw [natToBE]
    split
    · simp
    · rename_i hn
      cases k with
      | zero =>
        simp at h
        omega
      | succ k =>
        have hdiv : n / 256 < 256 ^ k := by
          apply Nat.div_lt_of_lt_mul
          calc n < 256 ^ (k + 1) := h
            _ = 256 * 256 ^ k := by ring
        have := ih (n / 256) (Nat.div_lt_self (Nat.pos_of_ne_zero hn) (by norm_num)) k hdiv
        simp only [List.length_append, List.length_cons, List.length_nil]
        omega

theorem natToBE_pos_ne_nil {n : Nat} (h : n ≠ 0) : natToBE n ≠ [] := by
  intro hnil
  exact h ((natToBE_eq_nil_iff n).mp hnil)

/-! ## The self-describing length of an RLP item

`itemLen` reads the header of the first item of a byte stream and returns the
total number of bytes that item occupies; it is the tool that makes the
encoding prefix-free, which the injectivity claims rest on. -/

def itemLen : List Nat → Option Nat
  | [] => none
  | b :: rest =>
    if b < 0x80 then some 1
    else if b < 0xb8 then some (1 + (b - 0x80))
    else if b < 0xc0 then
      if b - 0xb7 ≤ rest.length then some (1 + (b - 0xb7) + beVal (rest.take (b - 0xb7)))
      else none
    else if b < 0xf8 then some (1 + (b - 0xc0))
    else
      if b - 0xf7 ≤ rest.length then some (1 + (b - 0xf7) + beVal (rest.take (b - 0xf7)))
      else none

theorem itemLen_rlpBytes (b r : List Nat) (hb : b.length < 2 ^ 64) :
    itemLen (rlpBytes b ++ r) = some (rlpBytes b).length := by
  by_cases hself : b.length = 1 ∧ b.headI < 0x80
  · obtain ⟨x, rfl⟩ := List.length_eq_one.mp hself.1
    have hx : x < 0x80 := by simpa using hself.2
    simp [rlpBytes, hself, itemLen, hx]
  · by_cases hshort : b.length ≤ 55
    · simp only [rlpBytes, if_neg hself, if_pos hshort, List.cons_append, itemLen,
        List.length_cons]
      rw [if_neg (by omega), if_pos (by omega)]
      congr 1
      omega
    · have hLpos : b.length ≠ 0 := by omega
      have hk1 : 1 ≤ (natToBE b.length).length := by
        rcases heq : natToBE b.length with _ | ⟨a, as⟩
        · exact absurd ((natToBE_eq_nil_iff _).mp heq) hLpos
        · simp
      have hk8 : (natToBE b.length).length ≤ 8 := by
        apply length_natToBE_le
        calc b.length < 2 ^ 64 := hb
          _ = 256 ^ 8 := by norm_num
      simp only [rlpBytes, if_neg hself, if_neg hshort, List.cons_append, itemLen,
        List.length_cons, List.length_append]
      rw [if_neg (by omega), if_neg (by omega), if_pos (by omega),
        if_pos (by simp [List.length_append]; omega)]
      have htake : ((natToBE b.length ++ b) ++ r).take (0xb7 + (natToBE b.length).length - 0xb7) =
          natToBE b.length := by
        rw [List.append_assoc]
        have : 0xb7 + (natToBE b.length).length - 0xb7 = (natToBE b.length).length := by omega
        rw [this, List.take_left]
      rw [htake, beVal_natToBE]
      congr 1
      omega

theorem itemLen_rlpListPayload (p r : List Nat) :
    itemLen (rlpListPayload p ++ r) = some (rlpListPayload p).length := by
  by_cases hshort : p.length ≤ 55
  · simp only [rlpListPayload, if_pos hshort, List.cons_append, itemLen, List.length_cons]
    rw [if_neg (by omega), if_neg (by omega), if_neg (by omega), if_pos (by omega)]
    congr 1
    omega
  · have hLpos : p.length ≠ 0 := by omega
    have hk1 : 1 ≤ (natToBE p.length).length := by
      rcases heq : natToBE p.length with _ | ⟨a, as⟩
      · exact absurd ((natToBE_eq_nil_iff _).mp heq) hLpos
      · simp
    simp only [rlpListPayload, if_neg hshort, List.cons_append, itemLen,
      List.length_cons, List.length_append]
    rw [if_neg (by omega), if_neg (by omega), if_neg (by omega), if_neg (by omega),
      if_pos (by simp [List.length_append]; omega)]
    have htake : ((natToBE p.length ++ p) ++ r).take (0xf7 + (natToBE p.length).length - 0xf7) =
        natToBE p.length := by
      rw [List.append_assoc]
      have : 0xf7 + (natToBE p.length).length - 0xf7 = (natToBE p.length).length := by omega
      rw [this, List.take_left]
    rw [htake, beVal_natToBE]
    congr 1
    omega

/-- The splitting lemma: two streams that agree and both start with an item of
self-described length split identically — the encoding is prefix-free. -/
theorem item_split {e₁ e₂ r₁ r₂ : List Nat}
    (h₁ : itemLen (e₁ ++ r₁) = some e₁.length)
    (h₂ : itemLen (e₂ ++ r₂) = some e₂.length)
    (heq : e₁ ++ r₁ = e₂ ++ r₂) : e₁ = e₂ ∧ r₁ = r₂ := by
  rw [heq] at h₁
  rw [h₁] at h₂
  exact List.append_inj heq (Option.some.inj h₂)

/-! ## Decoders, establishing injectivity of the primitive encoders -/

/-- Recover the payload of an encoded byte string; inverse of `rlpBytes`. -/
def rlpBytesDecode : List Nat → Option (List Nat)
  | [] => none
  | h :: rest =>
    if h < 0x80 then some [h]
    else if h < 0xb8 then some rest
    else some (rest.drop (h - 0xb7))

/-- Recover the payload of an encoded list; inverse of `rlpListPayload`. -/
def rlpListDecode : List Nat → Option (List Nat)
  | [] => none
  | h :: rest => if h < 0xf8 then some rest else some (rest.drop (h - 0xf7))

theorem rlpBytesDecode_rlpBytes (b : List Nat) : rlpBytesDecode (rlpBytes b) = some b := by
  by_cases hself : b.length = 1 ∧ b.headI < 0x80
  · obtain ⟨x, rfl⟩ := List.length_eq_one.mp hself.1
    have hx : x < 0x80 := by simpa using hself.2
    simp [rlpBytes, hself, rlpBytesDecode, hx]
  · by_cases hshort : b.length ≤ 55
    · simp only [rlpBytes, if_neg hself, if_pos hshort, rlpBytesDecode]
      rw [if_neg (by omega), if_pos (by omega)]
    · have hLpos : b.length ≠ 0 := by omega
      have hk1 : 1 ≤ (natToBE b.length).length := by
        rcases heq : natToBE b.length with _ | ⟨a, as⟩
        · exact absurd ((natToBE_eq_nil_iff _).mp heq) hLpos
        · simp
      simp only [rlpBytes, if_neg hself, if_neg hshort, rlpBytesDecode]
      rw [if_neg (by omega), if_neg (by omega)]
      have : 0xb7 + (natToBE b.length).length - 0xb7 = (natToBE b.length).length := by omega
      rw [this, List.drop_left]

theorem rlpListDecode_rlpListPayload (p : List Nat) :
    rlpListDecode (rlpListPayload p) = some p := by
  by_cases hshort : p.length ≤ 55
  · simp only [rlpListPayload, if_pos hshort, rlpListDecode]
    rw [if_pos (by omega)]
  · have hLpos : p.length ≠ 0 := by omega
    have hk1 : 1 ≤ (natToBE p.length).length := by
      rcases heq : natToBE p.length with _ | ⟨a, as⟩
      · exact absurd ((natToBE_eq_nil_iff _).mp heq) hLpos
      · simp
    simp only [rlpListPayload, if_neg hshort, rlpListDecode]
    rw [if_neg (by omega)]
    have : 0xf7 + (natToBE p.length).length - 0xf7 = (natToBE p.length).length := by omega
    rw [this, List.drop_left]

theorem rlpBytes_inj {b₁ b₂ : List Nat} (h : rlpBytes b₁ = rlpBytes b₂) : b₁ = b₂ := by
  have := rlpBytesDecode_rlpBytes b₁
  rw [h, rlpBytesDecode_rlpBytes] at this
  exact (Option.some.inj this).symm

theorem rlpListPayload_inj {p₁ p₂ : List Nat}
    (h : rlpListPayload p₁ = rlpListPayload p₂) : p₁ = p₂ := by
  have := rlpListDecode_rlpListPayload p₁
  rw [h, rlpListDecode_rlpListPayload] at this
  exact (Option.some.inj this).symm

theorem rlpUint_inj {m n : Nat} (h : rlpUint m = rlpUint n) : m = n :=
  natToBE_inj (rlpBytes_inj h)

theorem rlpBytes_ne_nil (b : List Nat) : rlpBytes b ≠ [] := by
  unfold rlpBytes
  split
  · rename_i hself
    intro h
    rw [h] at hself
    simp at hself
  · split <;> simp

theorem rlpListPayload_ne_nil (p : List Nat) : rlpListPayload p ≠ [] := by
  unfold rlpListPayload
  split <;> simp

/-! ## Well-formedness, as the data model guarantees it

The Rust types enforce these shapes by construction: `U256` values fit
256 bits, `Address` is exactly 20 bytes, `StorageSlot` exactly 32 bytes, and
`Vec` lengths fit a `usize` (§3, §7 "prevented by construction via the data
model's fixed-size types"). -/

def alWF (al : List AccessEntry) : Prop :=
  ∀ e ∈ al, e.1.length = 20 ∧ ∀ k ∈ e.2, k.length = 32

def Transaction.WF (t : Transaction) : Prop :=
  t.chain_id < 2 ^ 256 ∧ t.nonce < 2 ^ 256 ∧ t.max_priority_fee_per_gas < 2 ^ 256 ∧
  t.max_fee_per_gas < 2 ^ 256 ∧ t.gas < 2 ^ 256 ∧ t.value < 2 ^ 256 ∧
  (∀ a, t.«to» = some a → a.length = 20) ∧ t.data.length < 2 ^ 64 ∧ alWF t.access_list

theorem itemLen_rlpUint (n : Nat) (r : List Nat) (h : n < 2 ^ 256) :
    itemLen (rlpUint n ++ r) = some (rlpUint n).length := by
  apply itemLen_rlpBytes
  have : (natToBE n).length ≤ 32 := by
    apply length_natToBE_le
    calc n < 2 ^ 256 := h
      _ = 256 ^ 32 := by norm_num
  omega

theorem itemLen_toEnc (o : Option (List Nat)) (r : List Nat)
    (h : ∀ a, o = some a → a.length = 20) :
    itemLen (toEnc o ++ r) = some (toEnc o).length := by
  cases o with
  | none => exact itemLen_rlpBytes [] r (by norm_num)
  | some a =>
    apply itemLen_rlpBytes
    rw [h a rfl]
    norm_num

theorem toEnc_inj {o₁ o₂ : Option (List Nat)}
    (h₁ : ∀ a, o₁ = some a → a.length = 20) (h₂ : ∀ a, o₂ = some a → a.length = 20)
    (h : toEnc o₁ = toEnc o₂) : o₁ = o₂ := by
  cases o₁ with
  | none =>
    cases o₂ with
    | none => rfl
    | some a =>
      have := rlpBytes_inj h
      have h20 := h₂ a rfl
      rw [← this] at h20
      simp at h20
  | some a =>
    cases o₂ with
    | none =>
      have := rlpBytes_inj h
      have h20 := h₁ a rfl
      rw [this] at h20
      simp at h20
    | some b =>
      rw [rlpBytes_inj h]

theorem map_rlpBytes_flatten_inj :
    ∀ ks₁ ks₂ : List (List Nat),
      (∀ k ∈ ks₁, k.length < 2 ^ 64) → (∀ k ∈ ks₂, k.length < 2 ^ 64) →
      (ks₁.map rlpBytes).flatten = (ks₂.map rlpBytes).flatten → ks₁ = ks₂ := by
  intro ks₁
  induction ks₁ with
  | nil =>
    intro ks₂ _ _ h
    cases ks₂ with
    | nil => rfl
    | cons k ks =>
      simp only [List.map_nil, List.flatten_nil, List.map_cons, List.flatten_cons] at h
      exact absurd (List.append_eq_nil.mp h.symm).1 (rlpBytes_ne_nil k)
  | cons k₁ ks₁ ih =>
    intro ks₂ h₁ h₂ h
    cases ks₂ with
    | nil =>
      simp only [List.map_nil, List.flatten_nil, List.map_cons, List.flatten_cons] at h
      exact absurd (List.append_eq_nil.mp h).1 (rlpBytes_ne_nil k₁)
    | cons k₂ ks₂ =>
      simp only [List.map_cons, List.flatten_cons] at h
      obtain ⟨hk, hrest⟩ := item_split
        (itemLen_rlpBytes k₁ _ (h₁ k₁ (by simp)))
        (itemLen_rlpBytes k₂ _ (h₂ k₂ (by simp))) h
      rw [rlpBytes_inj hk,
        ih ks₂ (fun k hk => h₁ k (by simp [hk])) (fun k hk => h₂ k (by simp [hk])) hrest]

theorem entryEnc_eq_listPayload (e : AccessEntry) :
    entryEnc e = rlpListPayload (rlpBytes e.1 ++ slotListEnc e.2) := by
  simp [entryEnc, rlpIter]

theorem entryEnc_inj {e₁ e₂ : AccessEntry}
    (h₁ : e₁.1.length = 20 ∧ ∀ k ∈ e₁.2, k.length = 32)
    (h₂ : e₂.1.length = 20 ∧ ∀ k ∈ e₂.2, k.length = 32)
    (h : entryEnc e₁ = entryEnc e₂) : e₁ = e₂ := by
  rw [entryEnc_eq_listPayload, entryEnc_eq_listPayload] at h
  have hsplit := item_split
    (itemLen_rlpBytes e₁.1 _ (by rw [h₁.1]; norm_num))
    (itemLen_rlpBytes e₂.1 _ (by rw [h₂.1]; norm_num))
    (rlpListPayload_inj h)
  have haddr : e₁.1 = e₂.1 := rlpBytes_inj hsplit.1
  have hslots : e₁.2 = e₂.2 := by
    have : (e₁.2.map rlpBytes).flatten = (e₂.2.map rlpBytes).flatten :=
      rlpListPayload_inj (by simpa [slotListEnc, rlpIter] using hsplit.2)
    exact map_rlpBytes_flatten_inj e₁.2 e₂.2
      (fun k hk => by rw [h₁.2 k hk]; norm_num)
      (fun k hk => by rw [h₂.2 k hk]; norm_num) this
  exact Prod.ext haddr hslots

theorem map_entryEnc_flatten_inj :
    ∀ al₁ al₂ : List AccessEntry, alWF al₁ → alWF al₂ →
      (al₁.map entryEnc).flatten = (al₂.map entryEnc).flatten → al₁ = al₂ := by
  intro al₁
  induction al₁ with
  | nil =>
    intro al₂ _ _ h
    cases al₂ with
    | nil => rfl
    | cons e al =>
      simp only [List.map_nil, List.flatten_nil, List.map_cons, List.flatten_cons] at h
      rw [entryEnc_eq_listPayload] at h
      exact absurd (List.append_eq_nil.mp h.symm).1 (rlpListPayload_ne_nil _)
  | cons e₁ al₁ ih =>
    intro al₂ h₁ h₂ h
    cases al₂ with
    | nil =>
      simp only [List.map_nil, List.flatten_nil, List.map_cons, List.flatten_cons] at h
      rw [entryEnc_eq_listPayload] at h
      exact absurd (List.append_eq_nil.mp h).1 (rlpListPayload_ne_nil _)
    | cons e₂ al₂ =>
      simp only [List.map_cons, List.flatten_cons] at h
      obtain ⟨he, hrest⟩ := item_split
        (entryEnc_eq_listPayload e₁ ▸ itemLen_rlpListPayload _ _)
        (entryEnc_eq_listPayload e₂ ▸ itemLen_rlpListPayload _ _) h
      rw [entryEnc_inj (h₁ e₁ (by simp)) (h₂ e₂ (by simp)) he,
        ih al₂ (fun e he => h₁ e (by simp [he])) (fun e he => h₂ e (by simp [he])) hrest]

theorem accessListRlpEncode_inj {al₁ al₂ : List AccessEntry}
    (h₁ : alWF al₁) (h₂ : alWF al₂)
    (h : accessListRlpEncode al₁ = accessListRlpEncode al₂) : al₁ = al₂ :=
  map_entryEnc_flatten_inj al₁ al₂ h₁ h₂
    (rlpListPayload_inj (by simpa [accessListRlpEncode, rlpIter] using h))

theorem itemLen_accessListRlpEncode (al : List AccessEntry) (r : List Nat) :
    itemLen (accessListRlpEncode al ++ r) = some (accessListRlpEncode al).length := by
  simp only [accessListRlpEncode, rlpIter]
  exact itemLen_rlpListPayload _ _

/-- Injectivity of the whole transaction encoding on well-formed values. -/
theorem rlp_encode_injOn {t₁ t₂ : Transaction} (sig : Option Signature)
    (h₁ : t₁.WF) (h₂ : t₂.WF)
    (henc : t₁.rlp_encode sig = t₂.rlp_encode sig) : t₁ = t₂ := by
  obtain ⟨hc₁, hn₁, hp₁, hf₁, hg₁, hv₁, ht₁, hd₁, ha₁⟩ := h₁
  obtain ⟨hc₂, hn₂, hp₂, hf₂, hg₂, hv₂, ht₂, hd₂, ha₂⟩ := h₂
  simp only [Transaction.rlp_encode, rlpIter, List.cons.injEq, true_and] at henc
  have hjoin := rlpListPayload_inj henc
  simp only [Transaction.txFields, List.append_assoc, List.cons_append, List.nil_append,
    List.flatten_cons, List.flatten_append] at hjoin
  obtain ⟨e₁, hjoin⟩ := item_split (itemLen_rlpUint _ _ hc₁) (itemLen_rlpUint _ _ hc₂) hjoin
  obtain ⟨e₂, hjoin⟩ := item_split (itemLen_rlpUint _ _ hn₁) (itemLen_rlpUint _ _ hn₂) hjoin
  obtain ⟨e₃, hjoin⟩ := item_split (itemLen_rlpUint _ _ hp₁) (itemLen_rlpUint _ _ hp₂) hjoin
  obtain ⟨e₄, hjoin⟩ := item_split (itemLen_rlpUint _ _ hf₁) (itemLen_rlpUint _ _ hf₂) hjoin
  obtain ⟨e₅, hjoin⟩ := item_split (itemLen_rlpUint _ _ hg₁) (itemLen_rlpUint _ _ hg₂) hjoin
  obtain ⟨e₆, hjoin⟩ := item_split (itemLen_toEnc _ _ ht₁) (itemLen_toEnc _ _ ht₂) hjoin
  obtain ⟨e₇, hjoin⟩ := item_split (itemLen_rlpUint _ _ hv₁) (itemLen_rlpUint _ _ hv₂) hjoin
  obtain ⟨e₈, hjoin⟩ := item_split (itemLen_rlpBytes _ _ hd₁) (itemLen_rlpBytes _ _ hd₂) hjoin
  obtain ⟨e₉, -⟩ := item_split (itemLen_accessListRlpEncode _ _)
    (itemLen_accessListRlpEncode _ _) hjoin
  cases t₁
  cases t₂
  simp only [Transaction.mk.injEq]
  exact ⟨rlpUint_inj e₁, rlpUint_inj e₂, rlpUint_inj e₃, rlpUint_inj e₄, rlpUint_inj e₅,
    toEnc_inj ht₁ ht₂ e₆, rlpUint_inj e₇, rlpBytes_inj e₈,
    accessListRlpEncode_inj ha₁ ha₂ e₉⟩

/-! ## Concrete fixtures, from the repository's `encode_signed_transaction` test -/

/-- The all-zero 20-byte address of the golden test. -/
def addr0 : List Nat :=
  [0, 0, 0, 0, 0, 0, 0, 0, 0, 0, 0, 0, 0, 0, 0, 0, 0, 0, 0, 0]

/-- The golden test transaction: chain_id 1, nonce 0, zero fees, gas 21000,
to the zero address, value 0, empty data and access list. -/
def tx0 : Transaction :=
  { chain_id := 1, nonce := 0, max_priority_fee_per_gas := 0, max_fee_per_gas := 0,
    gas := 21000, «to» := some addr0, value := 0, data := [], access_list := [] }

/-- `tx0` with the nonce changed, to exhibit injectivity on a spot pair. -/
def tx1 : Transaction :=
  { chain_id := 1, nonce := 1, max_priority_fee_per_gas := 0, max_fee_per_gas := 0,
    gas := 21000, «to» := some addr0, value := 0, data := [], access_list := [] }

/-- The signature the deterministic test key produces over `tx0`'s digest,
as recorded inside the repository's golden test vector (signing itself is the
external Sign collaborator). -/
def sig0 : Signature :=
  { y_parity := 1,
    r := 0x290dbdecbc884b4cb827015fe0cd7ac90df1a5634d52a2845c21afacca14b803,
    s := 0x3e848dd1a342e5528beff99c42876cf091a68e2090dbbced5a5f7f392d3abcda }

/-- The expected signed encoding from the repository's
`encode_signed_transaction` test, byte for byte. -/
def goldenSignedBytes : List Nat :=
  [0x02, 0xf8, 0x62, 0x01, 0x80, 0x80, 0x80, 0x82, 0x52, 0x08, 0x94, 0x00, 0x00,
   0x00, 0x00, 0x00, 0x00, 0x00, 0x00, 0x00, 0x00, 0x00, 0x00, 0x00, 0x00, 0x00,
   0x00, 0x00, 0x00, 0x00, 0x00, 0x80, 0x80, 0xc0, 0x01, 0xa0, 0x29, 0x0d, 0xbd,
   0xec, 0xbc, 0x88, 0x4b, 0x4c, 0xb8, 0x27, 0x01, 0x5f, 0xe0, 0xcd, 0x7a, 0xc9,
   0x0d, 0xf1, 0xa5, 0x63, 0x4d, 0x52, 0xa2, 0x84, 0x5c, 0x21, 0xaf, 0xac, 0xca,
   0x14, 0xb8, 0x03, 0xa0, 0x3e, 0x84, 0x8d, 0xd1, 0xa3, 0x42, 0xe5, 0x52, 0x8b,
   0xef, 0xf9, 0x9c, 0x42, 0x87, 0x6c, 0xf0, 0x91, 0xa6, 0x8e, 0x20, 0x90, 0xdb,
   0xbc, 0xed, 0x5a, 0x5f, 0x7f, 0x39, 0x2d, 0x3a, 0xbc, 0xda]

theorem tx0_rlp_encode_eval : tx0.rlp_encode (some sig0) = goldenSignedBytes := by
  simp [tx0, sig0, addr0, goldenSignedBytes, Transaction.rlp_encode, Transaction.txFields,
    sigTailEnc, toEnc, rlpUint, rlpBytes, rlpIter, rlpListPayload, accessListRlpEncode,
    natToBE]

theorem tx0_WF : tx0.WF := by
  refine ⟨by norm_num [tx0], by norm_num [tx0], by norm_num [tx0], by norm_num [tx0],
    by norm_num [tx0], by norm_num [tx0], ?_, by norm_num [tx0], ?_⟩
  · intro a ha
    simp only [tx0] at ha
    cases ha
    rfl
  · intro e he
    simp [tx0] at he

theorem tx1_WF : tx1.WF := by
  refine ⟨by norm_num [tx1], by norm_num [tx1], by norm_num [tx1], by norm_num [tx1],
    by norm_num [tx1], by norm_num [tx1], ?_, by norm_num [tx1], ?_⟩
  · intro a ha
    simp only [tx1] at ha
    cases ha
    rfl
  · intro e he
    simp [tx1] at he

/-! ## The claims -/

/-- C1: `rlp_encode(signature)` builds the encoded field sequence in exactly
the order chain_id, nonce, max_priority_fee_per_gas, max_fee_per_gas, gas, to
(empty byte string when absent, else the 20-byte address as a byte string),
value, data, access_list; appends the encoded y_parity, r, s exactly when a
signature is supplied; wraps the whole sequence as one list; and prepends the
single marker byte 0x02, so every encoded output begins with byte 0x02. -/
theorem rlp_encode_field_order_and_marker (t : Transaction) (sig : Option Signature) :
    t.rlp_encode sig = 0x02 :: rlpListPayload ((t.txFields ++ sigTailEnc sig).flatten) ∧
    t.txFields = [rlpUint t.chain_id, rlpUint t.nonce, rlpUint t.max_priority_fee_per_gas,
      rlpUint t.max_fee_per_gas, rlpUint t.gas, toEnc t.«to», rlpUint t.value,
      rlpBytes t.data, accessListRlpEncode t.access_list] ∧
    toEnc none = rlpBytes [] ∧ (∀ a, toEnc (some a) = rlpBytes a) ∧
    sigTailEnc none = [] ∧
    (∀ σ : Signature, sigTailEnc (some σ) = [rlpUint σ.y_parity, rlpUint σ.r, rlpUint σ.s]) ∧
    (t.rlp_encode sig).head? = some 0x02 :=
  ⟨rfl, rfl, rfl, fun _ => rfl, rfl, fun _ => rfl, rfl⟩

/-- C2: the unsigned-integer encoder first reduces the integer to its minimal
big-endian representation — value-faithful, never starting with a zero byte,
with zero reducing to the empty byte string and never more digits than the
value needs — and encodes that as a byte string; the integer zero encodes as
the single prefix byte 0x80. -/
theorem rlpUint_minimal_encoding (n : Nat) :
    rlpUint n = rlpBytes (natToBE n) ∧
    beVal (natToBE n) = n ∧
    (∀ l, natToBE n ≠ 0 :: l) ∧
    (∀ k, n < 256 ^ k → (natToBE n).length ≤ k) ∧
    natToBE 0 = [] ∧
    rlpUint 0 = [0x80] := by
  refine ⟨rfl, beVal_natToBE n, natToBE_ne_zero_cons n,
    fun k h => length_natToBE_le n k h, (natToBE_eq_nil_iff 0).mpr rfl, ?_⟩
  rw [rlpUint, (natToBE_eq_nil_iff 0).mpr rfl]
  simp [rlpBytes]

theorem rlpUint_minimal_encoding_witness :
    natToBE 300 ≠ 0 :: [44] ∧ (natToBE 300).length ≤ 2 :=
  ⟨(rlpUint_minimal_encoding 300).2.2.1 [44],
   (rlpUint_minimal_encoding 300).2.2.2.1 2 (by norm_num)⟩

/-- C3: `get_unsigned_rlp_encoded` returns exactly the 32-byte output of the
external hash collaborator applied to `rlp_encode(None)`, and
`get_signed_rlp_encoded` returns exactly `rlp_encode(Some(signature))`, with
no further hashing. -/
theorem digest_and_payload_passthrough (hash : List Nat → List Nat) (t : Transaction)
    (σ : Signature) (h32 : ∀ x, (hash x).length = 32) :
    t.get_unsigned_rlp_encoded hash = hash (t.rlp_encode none) ∧
    (t.get_unsigned_rlp_encoded hash).length = 32 ∧
    t.get_signed_rlp_encoded σ = t.rlp_encode (some σ) :=
  ⟨rfl, h32 _, rfl⟩

theorem digest_and_payload_passthrough_witness :
    (tx0.get_unsigned_rlp_encoded fun _ => List.replicate 32 0).length = 32 :=
  (digest_and_payload_passthrough (fun _ => List.replicate 32 0) tx0 sig0
    (fun _ => by simp)).2.1

/-- C4 as stated is false: the golden signed encoding of `tx0` with the
signature recorded in the repository's own test is 101 bytes long, not 113. -/
theorem golden_signed_encoding_is_101_bytes :
    (tx0.rlp_encode (some sig0)).length = 101 ∧
    (tx0.rlp_encode (some sig0)).length ≠ 113 := by
  rw [tx0_rlp_encode_eval]
  constructor <;> decide

/-- C4 (amended): the golden transaction, signed with the signature the fixed
deterministic private key produces (as recorded in the repository's test),
encodes to the specific known 101-byte sequence starting `02 f8 62 01`. -/
theorem golden_signed_encoding :
    tx0.rlp_encode (some sig0) = goldenSignedBytes ∧
    goldenSignedBytes.length = 101 ∧
    goldenSignedBytes.take 4 = [0x02, 0xf8, 0x62, 0x01] :=
  ⟨tx0_rlp_encode_eval, by decide, by decide⟩

/-- C5: `rlp_encode` is injective on well-formed Transactions — two
transactions that differ in at least one field produce different encoded
bytes under the same signature argument. -/
theorem rlp_encode_injective (t₁ t₂ : Transaction) (sig : Option Signature)
    (h₁ : t₁.WF) (h₂ : t₂.WF) (hne : t₁ ≠ t₂) :
    t₁.rlp_encode sig ≠ t₂.rlp_encode sig :=
  fun h => hne (rlp_encode_injOn sig h₁ h₂ h)

theorem rlp_encode_injective_witness : tx0.rlp_encode none ≠ tx1.rlp_encode none :=
  rlp_encode_injective tx0 tx1 none tx0_WF tx1_WF (by decide)

/-- C6: a Transaction with an empty access list encodes the access-list field
position as exactly the single byte 0xc0 (the encoding of a zero-length
list), not an omitted field. -/
theorem access_list_empty_field (t : Transaction) (sig : Option Signature)
    (h : t.access_list = []) :
    accessListRlpEncode t.access_list = [0xc0] ∧
    t.txFields = [rlpUint t.chain_id, rlpUint t.nonce, rlpUint t.max_priority_fee_per_gas,
      rlpUint t.max_fee_per_gas, rlpUint t.gas, toEnc t.«to», rlpUint t.value,
      rlpBytes t.data, [0xc0]] ∧
    t.rlp_encode sig = 0x02 ::
      rlpIter ([rlpUint t.chain_id, rlpUint t.nonce, rlpUint t.max_priority_fee_per_gas,
        rlpUint t.max_fee_per_gas, rlpUint t.gas, toEnc t.«to», rlpUint t.value,
        rlpBytes t.data, [0xc0]] ++ sigTailEnc sig) := by
  have hc : accessListRlpEncode t.access_list = [0xc0] := by
    rw [h]
    decide
  refine ⟨hc, ?_, ?_⟩
  · rw [Transaction.txFields, hc]
  · rw [Transaction.rlp_encode, Transaction.txFields, hc]

theorem access_list_empty_field_witness :
    accessListRlpEncode tx0.access_list = [0xc0] :=
  (access_list_empty_field tx0 none rfl).1

/-- C7: `sign_with_wallet` computes the unsigned digest, requests a signature
from the wallet, and returns the signed payload; a wallet failure propagates
unchanged with no retry, fallback or partial result, and the transaction is
left untouched either way (the embedding is pure, so no other side effect can
occur). -/
theorem sign_with_wallet_pipeline {ε : Type} (hash : List Nat → List Nat)
    (walletSign : List Nat → Except ε Signature) (t : Transaction) :
    (∀ e, walletSign (t.get_unsigned_rlp_encoded hash) = .error e →
      t.sign_with_wallet hash walletSign = (.error e, t)) ∧
    (∀ σ, walletSign (t.get_unsigned_rlp_encoded hash) = .ok σ →
      t.sign_with_wallet hash walletSign = (.ok (t.get_signed_rlp_encoded σ), t)) := by
  constructor <;> intro x hx <;> simp [Transaction.sign_with_wallet, hx]

theorem sign_with_wallet_pipeline_witness :
    tx0.sign_with_wallet (fun _ => []) (fun _ => Except.error 7) =
      (Except.error 7, tx0) ∧
    tx0.sign_with_wallet (fun _ => []) (fun _ => (Except.ok sig0 : Except Nat Signature)) =
      (Except.ok (tx0.get_signed_rlp_encoded sig0), tx0) :=
  ⟨(sign_with_wallet_pipeline (fun _ => []) (fun _ => Except.error 7) tx0).1 7 rfl,
   (sign_with_wallet_pipeline (fun _ => [])
     (fun _ => (Except.ok sig0 : Except Nat Signature)) tx0).2 sig0 rfl⟩

/-- C8: for a fixed Transaction value, repeated calls of the digest and of
the signed-payload operation return identical bytes, and the digest is a
function of the unsigned encoding alone — both operations are deterministic
pure functions of their inputs. -/
theorem encode_operations_deterministic (hash : List Nat → List Nat) (t : Transaction)
    (σ : Signature) :
    t.get_unsigned_rlp_encoded hash = t.get_unsigned_rlp_encoded hash ∧
    t.get_signed_rlp_encoded σ = t.get_signed_rlp_encoded σ ∧
    (∀ t' : Transaction, t'.rlp_encode none = t.rlp_encode none →
      t'.get_unsigned_rlp_encoded hash = t.get_unsigned_rlp_encoded hash) :=
  ⟨rfl, rfl, fun t' h => by rw [Transaction.get_unsigned_rlp_encoded,
    Transaction.get_unsigned_rlp_encoded, h]⟩

theorem encode_operations_deterministic_witness :
    tx0.get_unsigned_rlp_encoded (fun l => l) = tx0.get_unsigned_rlp_encoded (fun l => l) :=
  (encode_operations_deterministic (fun l => l) tx0 sig0).2.2 tx0 rfl

/-- C9: no operation of the core mutates a Transaction's fields: despite the
Rust method receiving `&mut self`, the transaction state after
`sign_with_wallet` equals the transaction before the call. -/
theorem sign_with_wallet_no_mutation {ε : Type} (hash : List Nat → List Nat)
    (walletSign : List Nat → Except ε Signature) (t : Transaction) :
    (t.sign_with_wallet hash walletSign).2 = t := by
  unfold Transaction.sign_with_wallet
  split <;> rfl

/-- C10: `get_random_bytes` fills the whole buffer and returns it as `Ok`
when the buffer holds at most 256 bytes — the error branch of its
`io::Result` is never taken — and for a longer buffer it panics via the
length assertion with the buffer already filled (the panic value carries the
filled buffer); consequently `generate_salt(size)` yields exactly `size`
random bytes when `size ≤ 256` and panics, after filling, when `size > 256`. -/
theorem random_bytes_and_salt (rng : Nat → Nat) (buf : List Nat) (size : Nat) :
    (buf.length ≤ 256 →
      get_random_bytes rng buf = .ok ((List.range buf.length).map rng)) ∧
    (256 < buf.length →
      get_random_bytes rng buf = .error ((List.range buf.length).map rng)) ∧
    (∀ l, get_random_bytes rng buf = .ok l → l.length = buf.length) ∧
    (∀ l, get_random_bytes rng buf = .error l → l.length = buf.length) ∧
    (size ≤ 256 → generate_salt rng size = .ok ((List.range size).map rng) ∧
      ((List.range size).map rng).length = size) ∧
    (256 < size → generate_salt rng size = .error ((List.range size).map rng) ∧
      ((List.range size).map rng).length = size) := by
  refine ⟨?_, ?_, ?_, ?_, ?_, ?_⟩
  · intro h
    simp [get_random_bytes, h]
  · intro h
    simp [get_random_bytes, Nat.not_le.mpr h]
  · intro l hl
    simp only [get_random_bytes] at hl
    split at hl
    · simp only [Except.ok.injEq] at hl
      simp [← hl]
    · simp at hl
  · intro l hl
    simp only [get_random_bytes] at hl
    split at hl
    · simp at hl
    · simp only [Except.error.injEq] at hl
      simp [← hl]
  · intro h
    constructor
    · simp [generate_salt, get_random_bytes, h]
    · simp
  · intro h
    constructor
    · simp [generate_salt, get_random_bytes, Nat.not_le.mpr h]
    · simp

theorem random_bytes_and_salt_witness :
    get_random_bytes (fun i => i) [0, 0, 0] = .ok [0, 1, 2] ∧
    generate_salt (fun i => i) 300 = .error ((List.range 300).map fun i => i) ∧
    ((List.range 300).map fun i => i).length = 300 :=
  ⟨by
    have := (random_bytes_and_salt (fun i => i) [0, 0, 0] 300).1 (by norm_num)
    simpa using this,
   ((random_bytes_and_salt (fun i => i) [0, 0, 0] 300).2.2.2.2.2 (by norm_num)).1,
   ((random_bytes_and_salt (fun i => i) [0, 0, 0] 300).2.2.2.2.2 (by norm_num)).2⟩

end BlockchainWallet
